import Mathlib

-- Verification of the sn_routing core against its specification.
-- Shallow embedding of: src/src/relocation.rs, src/src/node.rs, src/src/vote.rs,
-- src/src/node/stage/comm.rs.  External primitives (BLS/ed25519 signatures,
-- sha3_256, serialisation) are black-box dependencies and are modelled
-- abstractly; repository modules that are referenced but absent from src/
-- (proof.rs, peer_id.rs, consensus::Proven, section::MemberInfo, messages.rs)
-- are modelled from the spec and marked as such in their doc comments.

set_option linter.unusedVariables false
set_option linter.unreachableTactic false
set_option linter.unusedTactic false

-- ===== Relocation engine (src/src/relocation.rs) =====

/-- A byte, as stored in a `bls::Signature`'s byte representation. -/
abbrev SigByte := Fin 256

/-- Little-endian interpretation of a byte list, as `u64::from_le_bytes` does
for an 8-byte array (embedding keeps the value as a `Nat`; for 8 bytes the
result is below `2 ^ 64`). -/
def u64_from_le_bytes (l : List SigByte) : Nat :=
  l.foldr (fun b acc => b.val + 256 * acc) 0

/-- Embeds `partial_signature` from src/src/relocation.rs: take the first
`min (8, len)` bytes of the signature, zero-pad to 8 bytes, and read them
little-endian. -/
def signature_low_u64 (signature : List SigByte) : Nat :=
  u64_from_le_bytes (signature.take 8 ++ List.replicate (8 - min signature.length 8) (0 : SigByte))

/-- `2u64.saturating_pow age`: `2 ^ age` saturated at `u64::MAX = 2 ^ 64 - 1`. -/
def two_pow_saturating (age : Nat) : Nat :=
  min (2 ^ age) (2 ^ 64 - 1)

/-- Embeds `check` from src/src/relocation.rs: a member of age `age` is a
relocation candidate iff the low 64 bits of the churn signature are divisible
by `2u64.saturating_pow age`. -/
def check (age : Nat) (churn_signature : List SigByte) : Bool :=
  signature_low_u64 churn_signature % two_pow_saturating age == 0

/-- Rust `Ord::cmp` on natural numbers (`u8` ages compare numerically). -/
def natCmp (a b : Nat) : Ordering :=
  if a < b then .lt else if a = b then .eq else .gt

/-- Rust's lexicographic `cmp` on byte slices; `bls::Signature` compares by
its compressed byte representation. -/
def lexCmp : List SigByte → List SigByte → Ordering
  | [], [] => .eq
  | [], _ :: _ => .lt
  | _ :: _, [] => .gt
  | a :: as', b :: bs' => (natCmp a.val b.val).then (lexCmp as' bs')

/-- Modelled from the spec: `MemberInfo` state (`Joined`, `Left`, `Relocated`);
member_info.rs is not under src/. -/
inductive MemberState where
  | Joined
  | Left
  | Relocated
deriving DecidableEq

/-- Modelled from the spec: `MemberInfo { peer, state, age, age_counter }`;
member_info.rs is not under src/.  The peer is identified by its name. -/
structure MemberInfo where
  peer : Nat
  state : MemberState
  age : Nat
  age_counter : Nat
deriving DecidableEq

/-- Modelled from the spec: the BLS proof inside `Proven<T>`
(`{public_key, signature, payload_hash}`); consensus::Proven is not under
src/.  The signature is the byte representation used for comparisons. -/
structure BlsProof where
  public_key : Nat
  signature : List SigByte
  payload_hash : List Nat
deriving DecidableEq

/-- Modelled from the spec: `Proven<T>` is a value with a BLS proof;
consensus::Proven is not under src/. -/
structure Proven (T : Type) where
  value : T
  proof : BlsProof
deriving DecidableEq

/-- The comparator used by `select`: compare ages, break ties with the proof
signatures (`a.value.age.cmp(&b.value.age).then_with(|| a.proof.signature.cmp(...))`). -/
def selectOrdering (a b : Proven MemberInfo) : Ordering :=
  (natCmp a.value.age b.value.age).then (lexCmp a.proof.signature b.proof.signature)

/-- Embeds `select` from src/src/relocation.rs: pick the candidate to
relocate; `Greater` picks `a`, `Less` and `Equal` pick `b`. -/
def select (a b : Proven MemberInfo) : Proven MemberInfo :=
  match selectOrdering a b with
  | .gt => a
  | .lt => b
  | .eq => b

/-- A 256-bit name: 32 bytes indexed by position. -/
def XorName : Type := Fin 32 → Fin 256

/-- XOR of two bytes stays below 256. -/
def byteXor (a b : Fin 256) : Fin 256 :=
  ⟨a.val ^^^ b.val, Nat.xor_lt_two_pow (n := 8) a.isLt b.isLt⟩

/-- Embeds the private `xor` helper from src/src/relocation.rs: bytewise XOR
of two 32-byte names. -/
def xor_names (lhs rhs : XorName) : XorName :=
  fun i => byteXor (lhs i) (rhs i)

/-- Embeds `compute_destination` from src/src/relocation.rs, parametric in the
black-box `sha3_256` digest over 32-byte arrays. -/
def compute_destination (sha3_256 : XorName → XorName) (relocating_name churn_name : XorName) : XorName :=
  sha3_256 (xor_names relocating_name churn_name)

-- ===== Errors (src error.rs is absent; variants used by src files) =====

/-- Routing error variants used by the embedded operations (spec section 7). -/
inductive RoutingError where
  | FailedSignature
  | InvalidMessage
  | SerialisationFailed
deriving DecidableEq

-- ===== Cryptographic identity (src/src/vote.rs; peer_id.rs absent) =====

/-- Idealized detached ed25519 signature: perfectly binding, it determines the
signer's public key and the signed bytes.  The signature primitive is a
black-box dependency of the repository. -/
structure Signature where
  signer : Nat
  data : List Nat
deriving DecidableEq

/-- Idealized key derivation: public keys are in bijection with secret keys. -/
def pub_key_of (secret_key : Nat) : Nat := secret_key

/-- Idealized `sign::sign_detached`. -/
def sign_detached (data : List Nat) (secret_key : Nat) : Signature :=
  ⟨pub_key_of secret_key, data⟩

/-- Idealized `sign::verify_detached`: accepts exactly the signature produced
by the matching secret key on the same bytes. -/
def verify_detached (signature : Signature) (data : List Nat) (pub_key : Nat) : Bool :=
  signature.signer == pub_key && signature.data == data

/-- Modelled from the spec: a peer is identified by `(age, public_key)`;
peer_id.rs is not under src/ (only its callers in node.rs and vote.rs are). -/
structure PeerId where
  age : Nat
  pub_key : Nat
deriving DecidableEq

/-- Modelled from the spec: `PeerId::new(age, pub_key)`. -/
def PeerId.new (age : Nat) (pub_key : Nat) : PeerId :=
  ⟨age, pub_key⟩

/-- Embeds `Vote<T>` from src/src/vote.rs: a signed first-person declaration. -/
structure Vote (T : Type) where
  payload : T
  signature : Signature

/-- Embeds `Vote::new` from src/src/vote.rs.  `ser` is the black-box canonical
serialisation of the payload type; serialisation failure propagates as an
error, as `serialisation::serialise(&payload)?` does. -/
def Vote.new (ser : T → Option (List Nat)) (secret_key : Nat) (payload : T) :
    Except RoutingError (Vote T) :=
  match ser payload with
  | some data => .ok ⟨payload, sign_detached data secret_key⟩
  | none => .error .SerialisationFailed

/-- Embeds `Vote::validate_signature` from src/src/vote.rs: re-serialise and
verify; a payload that fails to serialise yields `false`, not an error. -/
def Vote.validate_signature (ser : T → Option (List Nat)) (v : Vote T) (peer_id : PeerId) : Bool :=
  match ser v.payload with
  | some data => verify_detached v.signature data peer_id.pub_key
  | none => false

-- ===== Block / consensus accumulator (src/src/node.rs; proof.rs absent) =====

/-- A 256-bit payload digest (`Digest256`). -/
abbrev Digest := List Nat

/-- Canonical serialisation of a digest: total and injective (the identity on
the underlying bytes).  Serialising a fixed-size byte array never fails. -/
def serDigest : Digest → Option (List Nat) :=
  fun d => some d

/-- Modelled from the spec: `Proof { peer_id, signature }`, a third-person
witness that `peer_id` signed the payload; proof.rs is not under src/ (only
its declaration site and callers in node.rs and vote.rs are). -/
structure Proof where
  peer_id : PeerId
  sig : Signature
deriving DecidableEq

/-- Modelled from the spec: `proof.key()` returns the peer's public key. -/
def Proof.key (p : Proof) : Nat := p.peer_id.pub_key

/-- Modelled from the spec: `proof.age()` returns the peer's age. -/
def Proof.age (p : Proof) : Nat := p.peer_id.age

/-- Modelled from the spec: `Proof.validate(payload_hash)` verifies that the
proof's signature covers the canonical serialisation of the payload. -/
def Proof.validate_signature (p : Proof) (payload : Digest) : Bool :=
  match serDigest payload with
  | some data => verify_detached p.sig data p.peer_id.pub_key
  | none => false

/-- Modelled from the spec: `Proof::new(pub_key, age, vote)` (the
`Vote.into_proof` operation): validate the vote against the constructed peer
id, then reuse its signature as the proof's signature. -/
def Proof.new (pub_key : Nat) (age : Nat) (vote : Vote Digest) : Except RoutingError Proof :=
  let peer_id := PeerId.new age pub_key
  if vote.validate_signature serDigest peer_id then
    .ok ⟨peer_id, vote.signature⟩
  else
    .error .FailedSignature

/-- `HashSet<Proof>` insertion with the spec's proof set-equality by
`peer_id`: fails (returns `none`) iff a proof from the same peer is present. -/
def insertProof (proofs : List Proof) (p : Proof) : Option (List Proof) :=
  if proofs.any (fun q => q.peer_id == p.peer_id) then none else some (p :: proofs)

/-- Embeds `Block` from src/src/node.rs: a payload digest with the set of
proofs attesting to it. -/
structure Block where
  payload : Digest
  proofs : List Proof
deriving DecidableEq

/-- Embeds `Block::new` from src/src/node.rs: validate the vote against the
peer id built from `(age, pub_key)`, then seed the proof set with the derived
proof. -/
def Block.new (vote : Vote Digest) (pub_key : Nat) (age : Nat) : Except RoutingError Block :=
  let peer_id := PeerId.new age pub_key
  if !(vote.validate_signature serDigest peer_id) then
    .error .FailedSignature
  else
    match Proof.new pub_key age vote with
    | .error e => .error e
    | .ok proof =>
      match insertProof [] proof with
      | none => .error .FailedSignature
      | some proofset => .ok ⟨vote.payload, proofset⟩

/-- Embeds `Block::add_proof` from src/src/node.rs; the mutation of `&mut
self` is returned as the second component, unchanged on error. -/
def Block.add_proof (b : Block) (proof : Proof) : Except RoutingError Unit × Block :=
  if !(proof.validate_signature b.payload) then
    (.error .FailedSignature, b)
  else
    match insertProof b.proofs proof with
    | some proofs => (.ok (), { b with proofs := proofs })
    | none => (.error .FailedSignature, b)

/-- Embeds `Block::remove_proof` from src/src/node.rs: retain the proofs whose
key differs from `pub_key`. -/
def Block.remove_proof (b : Block) (pub_key : Nat) : Block :=
  { b with proofs := b.proofs.filter (fun proof => decide (proof.key ≠ pub_key)) }

/-- Embeds `Block::prune_proofs_except` from src/src/node.rs: retain only the
proofs whose key is in `keys`. -/
def Block.prune_proofs_except (b : Block) (keys : List Nat) : Block :=
  { b with proofs := b.proofs.filter (fun proof => decide (proof.key ∈ keys)) }

/-- Embeds `Block::total_proofs` from src/src/node.rs. -/
def Block.total_proofs (b : Block) : Nat :=
  b.proofs.length

/-- Embeds `Block::total_proofs_age` from src/src/node.rs: sum of the
contributing peers' ages. -/
def Block.total_proofs_age (b : Block) : Nat :=
  b.proofs.foldl (fun total proof => total + proof.age) 0

-- ===== Relocation envelope (src/src/relocation.rs; messages.rs absent) =====

/-- Embeds `RelocateDetails` from src/src/relocation.rs (public id, BLS key
and destination stand in as opaque identifiers). -/
structure RelocateDetails where
  pub_id : Nat
  destination : XorName
  destination_key : Nat
  age : Nat

/-- Modelled from the spec: a routing `Message`'s variant tag; messages.rs is
not under src/.  `Relocate` carries `RelocateDetails`; all other variants are
collapsed into `Other`. -/
inductive Variant where
  | Relocate (details : RelocateDetails)
  | Other (tag : Nat)

/-- Modelled from the spec: a routing `Message` carries a variant, a source
and a destination; messages.rs is not under src/. -/
structure Message where
  src : Nat
  dst : Nat
  variant : Variant

/-- Embeds `SignedRelocateDetails` from src/src/relocation.rs: a signed
message whose content is `Variant::Relocate`. -/
structure SignedRelocateDetails where
  signed_msg : Message

/-- Embeds `SignedRelocateDetails::new` from src/src/relocation.rs: accept
only messages whose variant is `Variant::Relocate`. -/
def SignedRelocateDetails.new (signed_msg : Message) : Except RoutingError SignedRelocateDetails :=
  match signed_msg.variant with
  | .Relocate _ => .ok ⟨signed_msg⟩
  | .Other _ => .error .InvalidMessage

/-- Embeds `SignedRelocateDetails::relocate_details` from
src/src/relocation.rs; the source's wrong-variant branch diverges (it is a
runtime abort), embedded as `none`. -/
def SignedRelocateDetails.relocate_details (s : SignedRelocateDetails) : Option RelocateDetails :=
  match s.signed_msg.variant with
  | .Relocate details => some details
  | .Other _ => none

/-- Embeds the `Deserialize` impl for `SignedRelocateDetails` from
src/src/relocation.rs: deserialise the message (already decoded here), then
go through `Self::new`, mapping its error to a decode error. -/
def deserializeSignedRelocateDetails (signed_msg : Message) : Option SignedRelocateDetails :=
  (SignedRelocateDetails.new signed_msg).toOption

-- ===== Delivery-group send state machine (src/src/node/stage/comm.rs) =====

/-- Embeds `RESEND_MAX_ATTEMPTS` from src/src/node/stage/comm.rs. -/
def RESEND_MAX_ATTEMPTS : Nat := 3

/-- Embeds `Recipient` from src/src/node/stage/comm.rs; socket addresses
stand in as opaque naturals. -/
structure Recipient where
  addr : Nat
  sending : Bool
  attempt : Nat
deriving DecidableEq

/-- Embeds `SendState` from src/src/node/stage/comm.rs. -/
structure SendState where
  recipients : List Recipient
  remaining : Nat
deriving DecidableEq

/-- Embeds `SendStatus` from src/src/node/stage/comm.rs. -/
structure SendStatus where
  remaining : Nat
  failed_recipients : List Nat
deriving DecidableEq

/-- The filter used by `SendState::next`: not currently sending and attempts
below `RESEND_MAX_ATTEMPTS`. -/
def eligible (r : Recipient) : Bool :=
  !r.sending && decide (r.attempt < RESEND_MAX_ATTEMPTS)

/-- The count of recipients currently marked as sending (the `active` count
in `SendState::next`). -/
def countSending (l : List Recipient) : Nat :=
  l.countP (fun r => r.sending)

/-- The minimal attempt count among eligible recipients, the value
`min_by_key(|recipient| recipient.attempt)` minimises. -/
def pickMin : List Recipient → Option Nat
  | [] => none
  | r :: rest =>
    match pickMin rest with
    | none => if eligible r then some r.attempt else none
    | some m => if eligible r then some (min r.attempt m) else some m

/-- The in-place update `recipient.attempt += 1; recipient.sending = true`. -/
def bump (r : Recipient) : Recipient :=
  { r with attempt := r.attempt + 1, sending := true }

/-- Dispatch to the first eligible recipient whose attempt count is `m`; with
`m` the minimum over eligible recipients this is exactly the recipient Rust's
`min_by_key` picks (the first minimal one). -/
def dispatchAt (m : Nat) : List Recipient → Option Nat × List Recipient
  | [] => (none, [])
  | r :: rest =>
    if eligible r && r.attempt == m then (some r.addr, bump r :: rest)
    else ((dispatchAt m rest).1, r :: (dispatchAt m rest).2)

/-- Embeds `SendState::new` from src/src/node/stage/comm.rs. -/
def SendState.new (recipients : List Nat) (delivery_group_size : Nat) : SendState :=
  ⟨recipients.map (fun addr => ⟨addr, false, 0⟩), delivery_group_size⟩

/-- Embeds `SendState::next` from src/src/node/stage/comm.rs: no dispatch
when the active count reaches `remaining`; otherwise send to the first
eligible recipient with the lowest attempt count, marking it sending. -/
def SendState.next (s : SendState) : Option Nat × SendState :=
  if s.remaining ≤ countSending s.recipients then (none, s)
  else
    match pickMin s.recipients with
    | none => (none, s)
    | some m =>
      ((dispatchAt m s.recipients).1, { s with recipients := (dispatchAt m s.recipients).2 })

/-- Rust `Iterator::position`/`find` over the recipient list: index of the
first recipient matching the predicate. -/
def position (p : Recipient → Bool) : List Recipient → Option Nat
  | [] => none
  | r :: rest => if p r then some 0 else (position p rest).map (· + 1)

/-- Clear the `sending` flag of the first recipient with this address, as
`SendState::failure` does via `iter_mut().find(...)`. -/
def clearSending (addr : Nat) : List Recipient → List Recipient
  | [] => []
  | r :: rest =>
    if r.addr == addr then { r with sending := false } :: rest
    else r :: clearSending addr rest

/-- Embeds `SendState::failure` from src/src/node/stage/comm.rs. -/
def SendState.failure (s : SendState) (addr : Nat) : SendState :=
  { s with recipients := clearSending addr s.recipients }

/-- Rust `Vec::swap_remove`: replace position `i` with the last element and
pop the last element. -/
def swapRemove (l : List Recipient) (i : Nat) : List Recipient :=
  match l.getLast? with
  | none => l
  | some last => (l.set i last).dropLast

/-- Embeds `SendState::success` from src/src/node/stage/comm.rs: remove the
first recipient with this address via `swap_remove` and decrement
`remaining`. -/
def SendState.success (s : SendState) (addr : Nat) : SendState :=
  match position (fun r => r.addr == addr) s.recipients with
  | some i => ⟨swapRemove s.recipients i, s.remaining - 1⟩
  | none => s

/-- Whether a `success` call actually removes a recipient (the recorded
successes are exactly these calls). -/
def SendState.successHits (s : SendState) (addr : Nat) : Bool :=
  (position (fun r => r.addr == addr) s.recipients).isSome

/-- Embeds `SendState::finish` from src/src/node/stage/comm.rs: report the
remaining count and the addresses that exhausted their attempts without being
removed by a success. -/
def SendState.finish (s : SendState) : SendStatus :=
  ⟨s.remaining,
   (s.recipients.filter
      (fun r => !r.sending && decide (RESEND_MAX_ATTEMPTS ≤ r.attempt))).map
     (fun r => r.addr)⟩

/-- An event of the send loop in `send_message_to_targets`: either the loop
asks `next` for a new dispatch, or an in-flight send (indexed into the
in-flight list) completes with success or failure. -/
inductive SendEv where
  | dispatch
  | complete (i : Nat) (ok : Bool)

/-- The state of one run of the send loop: the `SendState`, the addresses of
the in-flight sends, and the number of recorded successes. -/
structure RunState where
  st : SendState
  inflight : List Nat
  successes : Nat

/-- One step of the send loop of `send_message_to_targets`: a dispatch pushes
the address returned by `next` into the in-flight list; a completion pops an
in-flight address and reports it to `success` or `failure`. -/
def stepRun (rs : RunState) (e : SendEv) : RunState :=
  match e with
  | .dispatch =>
    ⟨rs.st.next.2,
     match rs.st.next.1 with
     | some addr => addr :: rs.inflight
     | none => rs.inflight,
     rs.successes⟩
  | .complete i ok =>
    match rs.inflight.get? i with
    | none => rs
    | some addr =>
      match ok with
      | true =>
        ⟨rs.st.success addr, rs.inflight.eraseIdx i,
         rs.successes + cond (rs.st.successHits addr) 1 0⟩
      | false =>
        ⟨rs.st.failure addr, rs.inflight.eraseIdx i, rs.successes⟩

/-- A whole run of the send loop: start from `SendState::new` with no
in-flight sends, then apply any interleaving of dispatch and completion
events. -/
def runSend (recipients : List Nat) (delivery_group_size : Nat) (evs : List SendEv) : RunState :=
  evs.foldl stepRun ⟨SendState.new recipients delivery_group_size, [], 0⟩

/-- The run invariant: recorded successes and `remaining` partition the
requested group size, in-flight sends (with successes) never exceed the group
size, in-flight sends are covered by `sending`-marked recipients, and attempt
counts never exceed `RESEND_MAX_ATTEMPTS`. -/
def SendInv (g : Nat) (rs : RunState) : Prop :=
  rs.successes + rs.st.remaining = g ∧
  rs.inflight.length + rs.successes ≤ g ∧
  rs.inflight.length ≤ countSending rs.st.recipients ∧
  ∀ r ∈ rs.st.recipients, r.attempt ≤ RESEND_MAX_ATTEMPTS

-- ===== Theorems =====

-- Concrete values used by witnesses and counterexamples.

/-- An 8-byte signature of all `0xFF` bytes: its low 64 bits are `u64::MAX`. -/
def c1sig : List SigByte := List.replicate 8 (255 : SigByte)

/-- A 1-byte signature `[0x08]`: its low 64 bits are `8`. -/
def c1sig8 : List SigByte := [(8 : SigByte)]

/-- A relocation candidate of age 5 (peer name 1). -/
def c2candA : Proven MemberInfo := ⟨⟨1, .Joined, 5, 0⟩, ⟨0, [(1 : SigByte)], []⟩⟩

/-- A distinct relocation candidate with the same age and proof signature
(peer name 2). -/
def c2candB : Proven MemberInfo := ⟨⟨2, .Joined, 5, 0⟩, ⟨0, [(1 : SigByte)], []⟩⟩

/-- A candidate of age 6 with the same proof signature. -/
def c2candC : Proven MemberInfo := ⟨⟨3, .Joined, 6, 0⟩, ⟨0, [(1 : SigByte)], []⟩⟩

/-- A payload digest for block examples. -/
def c6payload : Digest := [1]

/-- The signature of secret key 5 on that payload. -/
def c6sig : Signature := sign_detached [1] 5

/-- A proof by peer `(age 1, key 5)` on `c6payload`. -/
def c6proof1 : Proof := ⟨PeerId.new 1 5, c6sig⟩

/-- A proof by peer `(age 2, key 5)` — same public key, different age. -/
def c6proof2 : Proof := ⟨PeerId.new 2 5, c6sig⟩

/-- A block holding two valid proofs that share public key 5. -/
def c6block : Block := ⟨c6payload, [c6proof1, c6proof2]⟩

/-- A block holding a single valid proof with key 5. -/
def c6small : Block := ⟨c6payload, [c6proof1]⟩

/-- A serialisation on `Nat` payloads that fails exactly on payload 0. -/
def ser9 : Nat → Option (List Nat) :=
  fun n => if n == 0 then none else some [n]

/-- The vote produced by `Vote::new(sk 3, payload 1)` under `ser9`. -/
def vote9 : Vote Nat := ⟨1, sign_detached [1] 3⟩

/-- A vote value whose payload does not serialise under `ser9`. -/
def vote9bad : Vote Nat := ⟨0, sign_detached [9] 3⟩

/-- A message whose variant is `Relocate`. -/
def c10msg : Message := ⟨0, 0, .Relocate ⟨0, fun _ => 0, 0, 5⟩⟩

/-- The `SignedRelocateDetails` wrapping `c10msg`. -/
def c10srd : SignedRelocateDetails := ⟨c10msg⟩

-- Helper lemmas.

theorem u64_from_le_bytes_lt (l : List SigByte) : u64_from_le_bytes l < 256 ^ l.length := by
  induction l with
  | nil => simp [u64_from_le_bytes]
  | cons b rest ih =>
    have hb : b.val < 256 := b.isLt
    have hc : u64_from_le_bytes (b :: rest) = b.val + 256 * u64_from_le_bytes rest := rfl
    rw [hc, List.length_cons, pow_succ]
    omega

theorem signature_low_u64_lt (sig : List SigByte) : signature_low_u64 sig < 2 ^ 64 := by
  have h := u64_from_le_bytes_lt (sig.take 8 ++ List.replicate (8 - min sig.length 8) (0 : SigByte))
  have hlen : (sig.take 8 ++ List.replicate (8 - min sig.length 8) (0 : SigByte)).length = 8 := by
    simp [List.length_take, List.length_replicate]
    omega
  rw [hlen] at h
  have hpow : (256 : Nat) ^ 8 = 2 ^ 64 := by norm_num
  unfold signature_low_u64
  omega

theorem ordering_then_swap (o1 o2 : Ordering) : (o1.then o2).swap = o1.swap.then o2.swap := by
  cases o1 <;> cases o2 <;> rfl

theorem natCmp_swap (a b : Nat) : (natCmp a b).swap = natCmp b a := by
  unfold natCmp
  split_ifs <;> first | rfl | omega

theorem lexCmp_swap : ∀ l r : List SigByte, (lexCmp l r).swap = lexCmp r l := by
  intro l
  induction l with
  | nil => intro r; cases r <;> rfl
  | cons a as' ih =>
    intro r
    cases r with
    | nil => rfl
    | cons b bs' =>
      show ((natCmp a.val b.val).then (lexCmp as' bs')).swap = (natCmp b.val a.val).then (lexCmp bs' as')
      rw [ordering_then_swap, natCmp_swap, ih]

theorem selectOrdering_swap (a b : Proven MemberInfo) :
    (selectOrdering a b).swap = selectOrdering b a := by
  unfold selectOrdering
  rw [ordering_then_swap, natCmp_swap, lexCmp_swap]

-- C1

/-- C1 counterexample: at age 64 and a signature whose low 64 bits are
`u64::MAX`, `check` returns `true` although `u64::MAX mod 2 ^ 64 ≠ 0`; the
claimed equivalence with exact `mod 2 ^ age` fails for ages ≥ 64. -/
theorem c1_counterexample :
    check 64 c1sig = true ∧ signature_low_u64 c1sig % 2 ^ 64 ≠ 0 := by
  decide

/-- C1 (amended): `check age σ` is true iff the low 64 bits of `σ` are
divisible by `2 ^ age` saturated at `u64::MAX`; for ages 0..=63 this is
exactly divisibility by `2 ^ age`, while for ages ≥ 64 it holds iff the low
64 bits are `0` or `u64::MAX`. -/
theorem c1_check_spec :
    ∀ (age : Nat) (sig : List SigByte),
      (age ≤ 63 → (check age sig = true ↔ signature_low_u64 sig % 2 ^ age = 0)) ∧
      (64 ≤ age → (check age sig = true ↔
        signature_low_u64 sig = 0 ∨ signature_low_u64 sig = 2 ^ 64 - 1)) := by
  intro age sig
  have hlt := signature_low_u64_lt sig
  constructor
  · intro hage
    have hle : (2 : Nat) ^ age ≤ 2 ^ 64 - 1 := by
      have h1 : (2 : Nat) ^ age ≤ 2 ^ 63 := Nat.pow_le_pow_right (by norm_num) hage
      have h2 : (2 : Nat) ^ 63 ≤ 2 ^ 64 - 1 := by norm_num
      omega
    have hsat : two_pow_saturating age = 2 ^ age := Nat.min_eq_left hle
    unfold check
    rw [hsat]
    simp [beq_iff_eq]
  · intro hage
    have hge : (2 : Nat) ^ 64 - 1 ≤ 2 ^ age := by
      have h1 : (2 : Nat) ^ 64 ≤ 2 ^ age := Nat.pow_le_pow_right (by norm_num) hage
      omega
    have hsat : two_pow_saturating age = 2 ^ 64 - 1 := Nat.min_eq_right hge
    unfold check
    rw [hsat]
    simp only [beq_iff_eq]
    constructor
    · intro h
      have hdvd : (2 ^ 64 - 1 : Nat) ∣ signature_low_u64 sig :=
        Nat.dvd_iff_mod_eq_zero.mpr h
      rcases Nat.lt_or_ge (signature_low_u64 sig) (2 ^ 64 - 1) with hl | hg
      · exact Or.inl (Nat.eq_zero_of_dvd_of_lt hdvd hl)
      · exact Or.inr (by omega)
    · intro h
      rcases h with h | h <;> simp [h]

/-- C1 witness: age 3 with a signature of low 64 bits `8` passes the check. -/
theorem c1_witness : check 3 c1sig8 = true :=
  ((c1_check_spec 3 c1sig8).1 (by decide)).mpr (by decide)

-- C2

/-- C2 counterexample: two distinct candidates with equal age and equal proof
signature; `select` picks its second argument both ways round, so the result
is not stable under argument swap and neither pair is greater. -/
theorem c2_counterexample :
    select c2candA c2candB = c2candB ∧ select c2candB c2candA = c2candA ∧ c2candA ≠ c2candB := by
  decide

/-- C2 (amended): `select` always returns one of its two arguments; whenever
the two `(age, signature)` pairs differ under the lexicographic order, it
returns the greater one and is stable under argument swap; on equal pairs it
returns its second argument (so swap stability can fail only there). -/
theorem c2_select_spec :
    ∀ a b : Proven MemberInfo,
      (select a b = a ∨ select a b = b) ∧
      (selectOrdering a b = .gt → select a b = a ∧ select b a = a) ∧
      (selectOrdering a b = .lt → select a b = b ∧ select b a = b) ∧
      (selectOrdering a b ≠ .eq → select a b = select b a) := by
  intro a b
  have hswap := selectOrdering_swap a b
  refine ⟨?_, ?_, ?_, ?_⟩
  · unfold select
    cases selectOrdering a b <;> simp
  · intro h
    have hba : selectOrdering b a = .lt := by rw [← hswap, h]; rfl
    unfold select
    rw [h, hba]
    exact ⟨rfl, rfl⟩
  · intro h
    have hba : selectOrdering b a = .gt := by rw [← hswap, h]; rfl
    unfold select
    rw [h, hba]
    exact ⟨rfl, rfl⟩
  · intro h
    cases hab : selectOrdering a b with
    | lt =>
      have hba : selectOrdering b a = .gt := by rw [← hswap, hab]; rfl
      unfold select
      rw [hab, hba]
    | eq => exact absurd hab h
    | gt =>
      have hba : selectOrdering b a = .lt := by rw [← hswap, hab]; rfl
      unfold select
      rw [hab, hba]

/-- C2 witness: on candidates of different ages, `select` returns the older
one from either argument order. -/
theorem c2_witness :
    select c2candB c2candC = c2candC ∧ select c2candC c2candB = c2candC ∧
    (select c2candB c2candC = c2candB ∨ select c2candB c2candC = c2candC) :=
  have h := c2_select_spec c2candB c2candC
  ⟨(h.2.2.1 (by decide)).1, (h.2.2.1 (by decide)).2, h.1⟩

-- C3

/-- C3: `compute_destination(M, C)` is `sha3_256` of the bytewise XOR of the
two names, and it is symmetric in `(M, C)`. -/
theorem c3_compute_destination_spec :
    ∀ (sha3_256 : XorName → XorName) (m c : XorName),
      compute_destination sha3_256 m c = sha3_256 (xor_names m c) ∧
      compute_destination sha3_256 m c = compute_destination sha3_256 c m := by
  intro sha3_256 m c
  refine ⟨rfl, ?_⟩
  unfold compute_destination
  have hx : xor_names m c = xor_names c m := by
    funext i
    unfold xor_names byteXor
    exact Fin.ext (Nat.xor_comm _ _)
  rw [hx]

-- C4

/-- C4: `prune_proofs_except(keys)` keeps exactly the proofs whose key is in
`keys`, leaves the payload unchanged, and pruning down to zero proofs (empty
key set) succeeds. -/
theorem c4_prune_proofs_except_spec :
    ∀ (b : Block) (keys : List Nat),
      (b.prune_proofs_except keys).payload = b.payload ∧
      (∀ p : Proof, p ∈ (b.prune_proofs_except keys).proofs ↔ p ∈ b.proofs ∧ p.key ∈ keys) ∧
      (b.prune_proofs_except []).proofs = [] := by
  intro b keys
  refine ⟨rfl, ?_, ?_⟩
  · intro p
    simp [Block.prune_proofs_except, List.mem_filter]
  · simp [Block.prune_proofs_except]

-- C5

/-- C5: `add_proof(p)` succeeds and inserts `p` exactly when `p`'s signature
verifies against the payload and no proof from the same peer is present;
otherwise it returns `FailedSignature` and leaves the block unchanged. -/
theorem c5_add_proof_spec :
    ∀ (b : Block) (p : Proof),
      b.add_proof p =
        if p.validate_signature b.payload && !(b.proofs.any (fun q => q.peer_id == p.peer_id)) then
          (.ok (), ⟨b.payload, p :: b.proofs⟩)
        else
          (.error .FailedSignature, b) := by
  intro b p
  unfold Block.add_proof insertProof
  cases hv : p.validate_signature b.payload <;>
    cases hd : b.proofs.any (fun q => q.peer_id == p.peer_id) <;>
      simp [hv, hd]

-- C6

/-- C6 counterexample: a block holding two valid proofs that share public key
5 under different ages; `remove_proof(5)` drops both, and re-adding one of
them cannot restore the other, so the block differs from the original. -/
theorem c6_counterexample :
    c6proof1 ∈ c6block.proofs ∧ c6proof1.key = 5 ∧
    (∀ q ∈ c6block.proofs, q.validate_signature c6block.payload = true) ∧
    ((c6block.remove_proof 5).add_proof c6proof1).1 = .ok () ∧
    c6proof2 ∈ c6block.proofs ∧
    c6proof2 ∉ ((c6block.remove_proof 5).add_proof c6proof1).2.proofs := by
  refine ⟨by decide, rfl, by decide, rfl, by decide, by decide⟩

/-- C6 (amended): for a block whose proofs all validate against its payload
(the block invariant), if `p` is the only proof whose key is `k`, then
`remove_proof(k)` followed by `add_proof(p)` succeeds and restores the block:
same payload and the same proof set. -/
theorem c6_remove_then_add_spec :
    ∀ (b : Block) (p : Proof) (k : Nat),
      (∀ q ∈ b.proofs, q.validate_signature b.payload = true) →
      p ∈ b.proofs →
      p.key = k →
      (∀ q ∈ b.proofs, q.key = k → q = p) →
      ((b.remove_proof k).add_proof p).1 = .ok () ∧
      ((b.remove_proof k).add_proof p).2.payload = b.payload ∧
      (∀ q : Proof, q ∈ ((b.remove_proof k).add_proof p).2.proofs ↔ q ∈ b.proofs) := by
  intro b p k hval hmem hkey huniq
  have hpval : p.validate_signature b.payload = true := hval p hmem
  have hnodup : (b.remove_proof k).proofs.any (fun q => q.peer_id == p.peer_id) = false := by
    rw [List.any_eq_false]
    intro q hq
    rw [Block.remove_proof] at hq
    simp only [List.mem_filter, decide_eq_true_eq] at hq
    intro hbeq
    have hqp : q.peer_id = p.peer_id := by simpa using hbeq
    have : q.key = k := by
      unfold Proof.key
      rw [hqp]
      exact hkey
    exact hq.2 this
  have hresult : (b.remove_proof k).add_proof p =
      (.ok (), ⟨b.payload, p :: (b.remove_proof k).proofs⟩) := by
    have hpay : (b.remove_proof k).payload = b.payload := rfl
    rw [c5_add_proof_spec]
    rw [hpay, hnodup, hpval]
    rfl
  rw [hresult]
  refine ⟨rfl, rfl, ?_⟩
  intro q
  simp only [List.mem_cons]
  constructor
  · intro h
    rcases h with h | h
    · rw [h]; exact hmem
    · rw [Block.remove_proof] at h
      simp only [List.mem_filter, decide_eq_true_eq] at h
      exact h.1
  · intro h
    by_cases hq : q.key = k
    · exact Or.inl (huniq q h hq)
    · right
      rw [Block.remove_proof]
      simp only [List.mem_filter, decide_eq_true_eq]
      exact ⟨h, hq⟩

/-- C6 witness: on a concrete single-proof block, removing key 5 then
re-adding its proof restores the block. -/
theorem c6_witness :
    ((c6small.remove_proof 5).add_proof c6proof1).1 = .ok () ∧
    ((c6small.remove_proof 5).add_proof c6proof1).2.payload = c6small.payload ∧
    (c6proof1 ∈ ((c6small.remove_proof 5).add_proof c6proof1).2.proofs ↔
      c6proof1 ∈ c6small.proofs) :=
  have h := c6_remove_then_add_spec c6small c6proof1 5 (by decide) (by decide) (by decide)
    (by decide)
  ⟨h.1, h.2.1, h.2.2 c6proof1⟩

-- C7

/-- C7: `Block::new(vote, pub_key, age)` fails with `FailedSignature` exactly
when the vote does not validate against the peer id `(age, pub_key)`, and
otherwise returns a block with the vote's payload and exactly the one proof
derived from the vote. -/
theorem c7_block_new_spec :
    ∀ (vote : Vote Digest) (pub_key age : Nat),
      Block.new vote pub_key age =
        (if vote.validate_signature serDigest (PeerId.new age pub_key) then
          .ok ⟨vote.payload, [⟨PeerId.new age pub_key, vote.signature⟩]⟩
        else
          .error .FailedSignature) ∧
      (Block.mk vote.payload [⟨PeerId.new age pub_key, vote.signature⟩]).total_proofs = 1 := by
  intro vote pub_key age
  refine ⟨?_, rfl⟩
  unfold Block.new Proof.new insertProof
  cases hv : vote.validate_signature serDigest (PeerId.new age pub_key) <;> simp [hv]

-- C9

/-- C9: a vote built by `Vote::new(sk, x)` validates under a peer id exactly
when that peer id carries the public key of `sk` (so it validates under the
matching key and fails under every other), and a vote whose payload does not
re-serialise validates as `false` instead of failing. -/
theorem c9_vote_validate_spec :
    ∀ (T : Type) (ser : T → Option (List Nat)) (secret_key : Nat) (x : T) (v : Vote T),
      (Vote.new ser secret_key x = .ok v →
        ∀ peer_id : PeerId,
          v.validate_signature ser peer_id = (pub_key_of secret_key == peer_id.pub_key)) ∧
      (ser v.payload = none →
        ∀ peer_id : PeerId, v.validate_signature ser peer_id = false) := by
  intro T ser secret_key x v
  constructor
  · intro h peer_id
    cases hser : ser x with
    | none =>
      rw [Vote.new, hser] at h
      cases h
    | some data =>
      rw [Vote.new, hser] at h
      have hv : v = ⟨x, sign_detached data secret_key⟩ := (Except.ok.inj h).symm
      subst hv
      show Vote.validate_signature ser ⟨x, sign_detached data secret_key⟩ peer_id = _
      rw [Vote.validate_signature]
      simp only [hser]
      unfold verify_detached sign_detached
      simp
  · intro h peer_id
    rw [Vote.validate_signature, h]

/-- C9 witness: the vote of secret key 3 on payload 1 validates under the
peer id carrying key 3, fails under key 4, and a vote whose payload does not
serialise validates as false. -/
theorem c9_witness :
    Vote.validate_signature ser9 vote9 (PeerId.new 7 3) = true ∧
    Vote.validate_signature ser9 vote9 (PeerId.new 7 4) = false ∧
    Vote.validate_signature ser9 vote9bad (PeerId.new 7 3) = false :=
  ⟨((c9_vote_validate_spec Nat ser9 3 1 vote9).1 rfl (PeerId.new 7 3)).trans (by decide),
   ((c9_vote_validate_spec Nat ser9 3 1 vote9).1 rfl (PeerId.new 7 4)).trans (by decide),
   (c9_vote_validate_spec Nat ser9 3 1 vote9bad).2 rfl (PeerId.new 7 3)⟩

-- C10

/-- C10: `SignedRelocateDetails::new` (and the deserialiser built on it)
accepts exactly the messages whose variant is `Relocate`, rejecting the rest
with `InvalidMessage`; on every value they produce, `relocate_details`
returns the contained details (the source's wrong-variant branch, embedded as
`none`, is unreachable). -/
theorem c10_signed_relocate_details_spec :
    ∀ (m : Message) (s : SignedRelocateDetails),
      (SignedRelocateDetails.new m = .ok s →
        ∃ d, s.relocate_details = some d ∧ m.variant = .Relocate d) ∧
      (deserializeSignedRelocateDetails m = some s →
        ∃ d, s.relocate_details = some d) ∧
      ((∀ d, m.variant ≠ .Relocate d) → SignedRelocateDetails.new m = .error .InvalidMessage) := by
  intro m s
  obtain ⟨msrc, mdst, mv⟩ := m
  cases mv with
  | Relocate d =>
    refine ⟨?_, ?_, ?_⟩
    · intro h
      have hs : s = ⟨⟨msrc, mdst, .Relocate d⟩⟩ := (Except.ok.inj h).symm
      subst hs
      exact ⟨d, rfl, rfl⟩
    · intro h
      have hs : s = ⟨⟨msrc, mdst, .Relocate d⟩⟩ := by
        simpa [deserializeSignedRelocateDetails, SignedRelocateDetails.new,
          Except.toOption] using h.symm
      subst hs
      exact ⟨d, rfl⟩
    · intro h
      exact absurd rfl (h d)
  | Other t =>
    refine ⟨?_, ?_, ?_⟩
    · intro h
      simp [SignedRelocateDetails.new] at h
    · intro h
      simp [deserializeSignedRelocateDetails, SignedRelocateDetails.new, Except.toOption] at h
    · intro h
      rfl

/-- C10 witness: a concrete `Relocate` message is accepted and its details
are returned. -/
theorem c10_witness :
    ∃ d, SignedRelocateDetails.relocate_details c10srd = some d ∧
      c10msg.variant = .Relocate d :=
  (c10_signed_relocate_details_spec c10msg c10srd).1 rfl

-- C8 helper lemmas.

theorem dispatchAt_fst_none (m : Nat) :
    ∀ l : List Recipient, (dispatchAt m l).1 = none → (dispatchAt m l).2 = l := by
  intro l
  induction l with
  | nil => intro _; rfl
  | cons r rest ih =>
    by_cases hc : (eligible r && r.attempt == m) = true
    · simp only [dispatchAt, if_pos hc]
      intro h
      cases h
    · simp only [dispatchAt, if_neg hc]
      intro h
      show r :: (dispatchAt m rest).2 = r :: rest
      rw [ih h]

theorem dispatchAt_countSending (m : Nat) :
    ∀ (l : List Recipient) (a : Nat),
      (dispatchAt m l).1 = some a →
      countSending (dispatchAt m l).2 = countSending l + 1 := by
  intro l
  induction l with
  | nil => intro a h; cases h
  | cons r rest ih =>
    intro a
    by_cases hc : (eligible r && r.attempt == m) = true
    · simp only [dispatchAt, if_pos hc]
      intro _
      have he : eligible r = true := ((Bool.and_eq_true _ _).mp hc).1
      have hns : r.sending = false := by
        simp [eligible] at he
        exact he.1
      show countSending (bump r :: rest) = countSending (r :: rest) + 1
      simp only [countSending, List.countP_cons, bump, hns]
      simp
    · simp only [dispatchAt, if_neg hc]
      intro h
      show countSending (r :: (dispatchAt m rest).2) = countSending (r :: rest) + 1
      simp only [countSending, List.countP_cons]
      have hrec := ih a h
      simp only [countSending] at hrec
      omega

theorem dispatchAt_attempt_le (m : Nat) :
    ∀ l : List Recipient,
      (∀ r ∈ l, r.attempt ≤ RESEND_MAX_ATTEMPTS) →
      ∀ r ∈ (dispatchAt m l).2, r.attempt ≤ RESEND_MAX_ATTEMPTS := by
  intro l
  induction l with
  | nil => intro _ r hr; exact absurd hr (List.not_mem_nil r)
  | cons q rest ih =>
    intro hb r hr
    by_cases hc : (eligible q && q.attempt == m) = true
    · simp only [dispatchAt, if_pos hc] at hr
      rcases List.mem_cons.mp hr with hreq | hrest
      · have he : eligible q = true := ((Bool.and_eq_true _ _).mp hc).1
        have hq : q.attempt < RESEND_MAX_ATTEMPTS := by
          simp [eligible] at he
          exact he.2
        rw [hreq]
        show q.attempt + 1 ≤ RESEND_MAX_ATTEMPTS
        omega
      · exact hb r (List.mem_cons_of_mem q hrest)
    · simp only [dispatchAt, if_neg hc] at hr
      rcases List.mem_cons.mp hr with hreq | hrest
      · rw [hreq]; exact hb q (List.mem_cons_self q rest)
      · exact ih (fun x hx => hb x (List.mem_cons_of_mem q hx)) r hrest

theorem clearSending_countSending (addr : Nat) :
    ∀ l : List Recipient, countSending l ≤ countSending (clearSending addr l) + 1 := by
  intro l
  induction l with
  | nil => simp [clearSending, countSending]
  | cons r rest ih =>
    by_cases hc : (r.addr == addr) = true
    · simp only [clearSending, if_pos hc, countSending, List.countP_cons]
      simp only [countSending] at ih
      cases hs : r.sending <;> simp [hs] <;> omega
    · simp only [clearSending, if_neg hc, countSending, List.countP_cons]
      simp only [countSending] at ih
      omega

theorem clearSending_attempt_le (addr : Nat) :
    ∀ l : List Recipient,
      (∀ r ∈ l, r.attempt ≤ RESEND_MAX_ATTEMPTS) →
      ∀ r ∈ clearSending addr l, r.attempt ≤ RESEND_MAX_ATTEMPTS := by
  intro l
  induction l with
  | nil => intro _ r hr; exact absurd hr (List.not_mem_nil r)
  | cons q rest ih =>
    intro hb r hr
    by_cases hc : (q.addr == addr) = true
    · simp only [clearSending, if_pos hc] at hr
      rcases List.mem_cons.mp hr with hreq | hrest
      · rw [hreq]
        show q.attempt ≤ RESEND_MAX_ATTEMPTS
        exact hb q (List.mem_cons_self q rest)
      · exact hb r (List.mem_cons_of_mem q hrest)
    · simp only [clearSending, if_neg hc] at hr
      rcases List.mem_cons.mp hr with hreq | hrest
      · rw [hreq]; exact hb q (List.mem_cons_self q rest)
      · exact ih (fun x hx => hb x (List.mem_cons_of_mem q hx)) r hrest

theorem position_lt_length (p : Recipient → Bool) :
    ∀ (l : List Recipient) (i : Nat), position p l = some i → i < l.length := by
  intro l
  induction l with
  | nil => intro i h; cases h
  | cons r rest ih =>
    intro i
    by_cases hc : p r = true
    · simp only [position, if_pos hc]
      intro h
      have h0 : i = 0 := (Option.some.inj h).symm
      rw [h0]
      simp
    · simp only [position, if_neg hc]
      intro h
      cases hp : position p rest with
      | none => rw [hp] at h; cases h
      | some j =>
        rw [hp] at h
        have hj : j + 1 = i := Option.some.inj h
        have := ih j hp
        simp only [List.length_cons]
        omega

theorem countP_eraseIdx_ge (p : Recipient → Bool) :
    ∀ (l : List Recipient) (i : Nat),
      List.countP p l ≤ List.countP p (l.eraseIdx i) + 1 := by
  intro l
  induction l with
  | nil => intro i; simp
  | cons r rest ih =>
    intro i
    cases i with
    | zero =>
      simp only [List.eraseIdx, List.countP_cons]
      split_ifs <;> omega
    | succ j =>
      simp only [List.eraseIdx, List.countP_cons]
      have := ih j
      omega

theorem swapRemove_perm :
    ∀ (l : List Recipient) (i : Nat), i < l.length → (swapRemove l i).Perm (l.eraseIdx i) := by
  intro l i hi
  rcases List.eq_nil_or_concat' l with rfl | ⟨A, x, rfl⟩
  · simp at hi
  · simp only [swapRemove, List.getLast?_concat]
    rw [List.length_append] at hi
    simp only [List.length_cons, List.length_nil] at hi
    rcases Nat.lt_or_ge i A.length with hiA | hiA
    · rw [List.set_append, if_pos hiA, List.dropLast_concat,
        List.eraseIdx_append_of_lt_length hiA, List.set_eq_take_cons_drop x hiA,
        List.eraseIdx_eq_take_drop_succ]
      exact List.perm_middle.trans
        (@List.perm_append_comm _ [x] (List.take i A ++ List.drop (i + 1) A))
    · have hieq : i = A.length := by omega
      subst hieq
      have hdrop : (A ++ [x]).drop (A.length + 1) = [] := List.drop_eq_nil_of_le (by simp)
      rw [List.set_append, if_neg (by omega), Nat.sub_self, List.set_cons_zero,
        List.dropLast_concat, List.eraseIdx_eq_take_drop_succ, List.take_left, hdrop]
      simp

theorem stepRun_inv (g : Nat) (rs : RunState) (e : SendEv) (hinv : SendInv g rs) :
    SendInv g (stepRun rs e) := by
  obtain ⟨⟨recips, rem⟩, infl, succ⟩ := rs
  have h1 : succ + rem = g := hinv.1
  have h2 : infl.length + succ ≤ g := hinv.2.1
  have h3 : infl.length ≤ countSending recips := hinv.2.2.1
  have h4 : ∀ r ∈ recips, r.attempt ≤ RESEND_MAX_ATTEMPTS := hinv.2.2.2
  cases e with
  | dispatch =>
    simp only [stepRun, SendState.next]
    by_cases hrem : rem ≤ countSending recips
    · rw [if_pos hrem]
      exact ⟨h1, h2, h3, h4⟩
    · rw [if_neg hrem]
      cases hpick : pickMin recips with
      | none => exact ⟨h1, h2, h3, h4⟩
      | some m =>
        cases hfst : (dispatchAt m recips).1 with
        | none =>
          have heq := dispatchAt_fst_none m recips hfst
          show SendInv g ⟨⟨(dispatchAt m recips).2, rem⟩, infl, succ⟩
          rw [heq]
          exact ⟨h1, h2, h3, h4⟩
        | some a =>
          have hcnt := dispatchAt_countSending m recips a hfst
          have hatt := dispatchAt_attempt_le m recips h4
          show SendInv g ⟨⟨(dispatchAt m recips).2, rem⟩, a :: infl, succ⟩
          refine ⟨h1, ?_, ?_, hatt⟩
          · simp only [List.length_cons]
            omega
          · simp only [List.length_cons]
            rw [hcnt]
            omega
  | complete i ok =>
    cases hget : infl.get? i with
    | none =>
      simp only [stepRun, hget]
      exact ⟨h1, h2, h3, h4⟩
    | some addr =>
      have hi : i < infl.length := by
        rcases List.get?_eq_some.mp hget with ⟨h, _⟩
        exact h
      have hlen : (infl.eraseIdx i).length = infl.length - 1 := by
        rw [List.length_eraseIdx, if_pos hi]
      cases ok with
      | false =>
        simp only [stepRun, hget, SendState.failure]
        have hc := clearSending_countSending addr recips
        refine ⟨h1, ?_, ?_, clearSending_attempt_le addr recips h4⟩
        · show (infl.eraseIdx i).length + succ ≤ g
          omega
        · show (infl.eraseIdx i).length ≤ countSending (clearSending addr recips)
          omega
      | true =>
        simp only [stepRun, hget, SendState.success, SendState.successHits]
        cases hpos : position (fun r => r.addr == addr) recips with
        | none =>
          simp only [Option.isSome_none, Bool.cond_false]
          refine ⟨?_, ?_, ?_, h4⟩
          · show succ + 0 + rem = g
            omega
          · show (infl.eraseIdx i).length + (succ + 0) ≤ g
            omega
          · show (infl.eraseIdx i).length ≤ countSending recips
            omega
        | some j =>
          simp only [Option.isSome_some, Bool.cond_true]
          have hj := position_lt_length _ recips j hpos
          have hperm := swapRemove_perm recips j hj
          have hcount : countSending (swapRemove recips j) =
              countSending (recips.eraseIdx j) := hperm.countP_eq _
          have hcount2 : countSending recips ≤ countSending (recips.eraseIdx j) + 1 :=
            countP_eraseIdx_ge (fun r => r.sending) recips j
          refine ⟨?_, ?_, ?_, ?_⟩
          · show succ + 1 + (rem - 1) = g
            omega
          · show (infl.eraseIdx i).length + (succ + 1) ≤ g
            omega
          · show (infl.eraseIdx i).length ≤ countSending (swapRemove recips j)
            rw [hlen, hcount]
            omega
          · intro r hr
            have hr2 : r ∈ recips.eraseIdx j := hperm.mem_iff.mp hr
            exact h4 r ((List.eraseIdx_sublist recips j).subset hr2)

theorem foldl_stepRun_inv (g : Nat) :
    ∀ (evs : List SendEv) (rs : RunState), SendInv g rs → SendInv g (evs.foldl stepRun rs) := by
  intro evs
  induction evs with
  | nil => intro rs h; exact h
  | cons e rest ih =>
    intro rs h
    exact ih (stepRun rs e) (stepRun_inv g rs e h)

theorem runSend_inv (recipients : List Nat) (g : Nat) (evs : List SendEv) :
    SendInv g (runSend recipients g evs) := by
  apply foldl_stepRun_inv
  refine ⟨?_, ?_, ?_, ?_⟩
  · show 0 + g = g
    omega
  · show ([] : List Nat).length + 0 ≤ g
    simp
  · exact Nat.zero_le _
  · intro r hr
    simp only [SendState.new] at hr
    rcases List.mem_map.mp hr with ⟨a, _, rfl⟩
    exact Nat.zero_le _

-- C8

/-- C8: for every run of the delivery-group send state machine (`new`, then
any interleaving of dispatches and in-flight completions), the final state
satisfies `remaining + successes ≤ delivery_group_size`, and every address
reported in `failed_recipients` by `finish` belongs to a recipient entry that
reached exactly `RESEND_MAX_ATTEMPTS` attempts and was never removed by a
recorded success (it is still present, with no send outstanding). -/
theorem c8_send_state_spec :
    ∀ (recipients : List Nat) (g : Nat) (evs : List SendEv),
      (runSend recipients g evs).st.remaining + (runSend recipients g evs).successes ≤ g ∧
      ∀ addr ∈ ((runSend recipients g evs).st.finish).failed_recipients,
        ∃ r ∈ (runSend recipients g evs).st.recipients,
          r.addr = addr ∧ r.attempt = RESEND_MAX_ATTEMPTS ∧ r.sending = false := by
  intro recipients g evs
  obtain ⟨h1, h2, h3, h4⟩ := runSend_inv recipients g evs
  constructor
  · omega
  · intro addr haddr
    simp only [SendState.finish] at haddr
    rcases List.mem_map.mp haddr with ⟨r, hrf, hra⟩
    rcases List.mem_filter.mp hrf with ⟨hrmem, hcond⟩
    rcases (Bool.and_eq_true _ _).mp hcond with ⟨hns, hatt⟩
    refine ⟨r, hrmem, hra, ?_, ?_⟩
    · have hge : RESEND_MAX_ATTEMPTS ≤ r.attempt := of_decide_eq_true hatt
      have hle := h4 r hrmem
      omega
    · simpa using hns

/-- The event interleaving of a run in which the single recipient fails all
three attempts. -/
def c8evs : List SendEv :=
  [.dispatch, .complete 0 false, .dispatch, .complete 0 false, .dispatch, .complete 0 false]

/-- C8 witness: a concrete run (one recipient, group size 1, three failed
attempts) keeps `remaining + successes` within the group size and reports the
exhausted recipient. -/
theorem c8_witness :
    (runSend [0] 1 c8evs).st.remaining + (runSend [0] 1 c8evs).successes ≤ 1 ∧
    ∃ r ∈ (runSend [0] 1 c8evs).st.recipients,
      r.addr = 0 ∧ r.attempt = RESEND_MAX_ATTEMPTS ∧ r.sending = false :=
  ⟨(c8_send_state_spec [0] 1 c8evs).1,
   (c8_send_state_spec [0] 1 c8evs).2 0 (by decide)⟩
